import Mathlib

/-!
Shallow embedding of `src/amacs.rs` (the AMAC core of the aeonflux repository).

Modelling conventions:

* The Ristretto255 group used by the code is cyclic of prime order
  `ell = 2^252 + 27742317777372353535851937790883648493`.  We model scalars as
  `ZMod ell` and group elements additively as `ZMod ell` (the group is
  isomorphic to its scalar field as an additive group); scalar multiplication
  of a point is ring multiplication.  Point compression is modelled as the
  injective 32-byte little-endian encoding of the discrete logarithm, and
  decompression accepts exactly the canonical encodings — this preserves the
  structural facts the code relies on (compression is injective,
  `decompress ∘ compress = some`, some byte strings are rejected, and the
  all-zero string decodes to the identity, as it does for real Ristretto).
* Randomness (`csprng` arguments in Rust) is passed in explicitly: each random
  draw becomes a parameter of the Lean function.
* Rust slice-indexing panics are modelled by `Option`: `none` is a panic, and
  `some (Except.error e)` / `some (Except.ok v)` are the `Err` / `Ok` results.
* `curve25519-dalek`'s `RistrettoPoint::multiscalar_mul` zips the scalar and
  point sequences (extra entries of the longer sequence are ignored), which is
  how `multiscalar_mul` is defined below.
-/

set_option maxRecDepth 10000

namespace Aeonflux

/-- The prime order of the Ristretto255 group (also the order of its scalar field). -/
def ell : Nat := 2 ^ 252 + 27742317777372353535851937790883648493

/-- `curve25519_dalek::scalar::Scalar`, an element of the field of order `ell`. -/
abbrev Scalar := ZMod ell

/-- `curve25519_dalek::ristretto::RistrettoPoint`, modelled additively via the
group isomorphism with `ZMod ell` (the group is cyclic of order `ell`). -/
abbrev Point := ZMod ell

/-- Little-endian value of a byte string. -/
def leVal (bytes : List Nat) : Nat := bytes.foldr (fun b acc => b + 256 * acc) 0

/-- Little-endian encoding of a natural number on a fixed number of bytes. -/
def natToLEBytes : Nat → Nat → List Nat
  | 0, _ => []
  | len + 1, v => v % 256 :: natToLEBytes len (v / 256)

/-- Checked subslice `bytes[start..start+len]`; `none` models the panic a Rust
slice expression raises when the range exceeds the buffer. -/
def slice (bytes : List Nat) (start len : Nat) : Option (List Nat) :=
  if start + len ≤ bytes.length then some ((bytes.drop start).take len) else none

/-- `Scalar::from_canonical_bytes`: accepts exactly the canonical (fully
reduced) 32-byte little-endian encodings, rejecting any value `≥ ell`. -/
def scalarFromCanonicalBytes (chunk : List Nat) : Option Scalar :=
  if leVal chunk < ell then some ((leVal chunk : Nat) : Scalar) else none

/-- `Scalar::as_bytes`: the canonical 32-byte little-endian encoding. -/
def scalarToBytes (s : Scalar) : List Nat := natToLEBytes 32 s.val

/-- `RistrettoPoint::compress` (abstract model, see the module header). -/
def pointCompress (P : Point) : List Nat := natToLEBytes 32 P.val

/-- `CompressedRistretto::decompress` (abstract model, see the module header). -/
def pointDecompress (bytes : List Nat) : Option Point :=
  if leVal bytes < ell then some ((leVal bytes : Nat) : Point) else none

/-- Decidable equality for `Except`, needed to evaluate results of the
fallible operations on concrete inputs. -/
instance {e a : Type} [DecidableEq e] [DecidableEq a] : DecidableEq (Except e a) :=
  fun x y =>
    match x, y with
    | Except.ok u, Except.ok v =>
      if h : u = v then isTrue (by rw [h])
      else isFalse (fun hc => h (Except.ok.inj hc))
    | Except.error u, Except.error v =>
      if h : u = v then isTrue (by rw [h])
      else isFalse (fun hc => h (Except.error.inj hc))
    | Except.ok _, Except.error _ => isFalse (fun hc => Except.noConfusion hc)
    | Except.error _, Except.ok _ => isFalse (fun hc => Except.noConfusion hc)

/-- Modelled from the spec: the error kinds of `crate::errors::MacError` used
by this module (the `errors` module is not part of the provided sources).
Scalar and point decoding failures inside `SecretKey::from_bytes` propagate as
`KeypairDeserialisation` per the spec. -/
inductive MacError
  | KeypairDeserialisation
  | MessageLengthError (length : Nat)
  | AuthenticationError
deriving DecidableEq

/-- Modelled from the spec: `crate::parameters::SystemParameters` (not part of
the provided sources) supplies a distinguished generator `G_w` and a sequence
`G_m` of generators whose length is the attribute capacity
`NUMBER_OF_ATTRIBUTES`; we carry `G_m` and define the capacity as its length. -/
structure SystemParameters where
  G_w : Point
  G_m : List Point
deriving DecidableEq

/-- The attribute capacity of a `SystemParameters` (see above). -/
def SystemParameters.NUMBER_OF_ATTRIBUTES (sp : SystemParameters) : Nat :=
  sp.G_m.length

/-- Modelled from the spec: `crate::symmetric::Plaintext` (not part of the
provided sources) exposes at least a group-element field `M1`. -/
structure Plaintext where
  M1 : Point
deriving DecidableEq

/-- Modelled from the spec: zeroizing a `Plaintext` zeroes its contents. -/
def Plaintext.zeroize (_ : Plaintext) : Plaintext := ⟨0⟩

/-- `amacs::SecretKey`. -/
structure SecretKey where
  w : Scalar
  w_prime : Scalar
  x_0 : Scalar
  x_1 : Scalar
  y : List Scalar
  W : Point
deriving DecidableEq

/-- `impl Zeroize for SecretKey`: every scalar field is zeroed (`Vec::zeroize`
zeroes each element) and `W` is set to the group identity. -/
def SecretKey.zeroize (sk : SecretKey) : SecretKey :=
  { w := 0, w_prime := 0, x_0 := 0, x_1 := 0
    y := sk.y.map (fun _ => 0), W := 0 }

/-- `SecretKey::generate`; the random draws are passed in explicitly: the four
named scalars plus a stream `ys` from which the `NUMBER_OF_ATTRIBUTES` entries
of `y` are taken.  `W` is computed as `G_w * w`. -/
def SecretKey.generate (sp : SystemParameters) (w w_prime x_0 x_1 : Scalar)
    (ys : Nat → Scalar) : SecretKey :=
  { w := w, w_prime := w_prime, x_0 := x_0, x_1 := x_1
    y := (List.range sp.NUMBER_OF_ATTRIBUTES).map ys
    W := sp.G_w * w }

/-- `amacs::sizeof_secret_key`. -/
def sizeof_secret_key (number_of_attributes : Nat) : Nat :=
  32 * (5 + number_of_attributes) + 4

/-- `SecretKey::to_bytes`: 4-byte little-endian attribute count, then
`w, w_prime, x_0, x_1`, then each `y_i`, then the compressed `W`. -/
def SecretKey.to_bytes (sk : SecretKey) : List Nat :=
  natToLEBytes 4 sk.y.length ++ scalarToBytes sk.w ++ scalarToBytes sk.w_prime ++
    scalarToBytes sk.x_0 ++ scalarToBytes sk.x_1 ++
    (sk.y.map scalarToBytes).flatten ++ pointCompress sk.W

/-- The `y`-parsing loop of `SecretKey::from_bytes`.  Faithful to the source:
the Rust loop advances `index` but never refreshes `chunk`, so every iteration
parses the same 32-byte buffer (the bytes copied from `bytes[132..164]`). -/
def parse_y_loop (chunk : List Nat) : Nat → Option (List Scalar)
  | 0 => some []
  | n + 1 =>
    match scalarFromCanonicalBytes chunk, parse_y_loop chunk n with
    | some s, some rest => some (s :: rest)
    | _, _ => none

/-- `SecretKey::from_bytes`.  `none` models a Rust panic (out-of-bounds slice);
`some (Except.error _)` models an `Err` return.  The only length check in the
source compares against `sizeof_secret_key(1)`; all later slice reads are
modelled with the checked `slice`. -/
def SecretKey.from_bytes (bytes : List Nat) : Option (Except MacError SecretKey) :=
  if bytes.length < sizeof_secret_key 1 then
    some (Except.error MacError.KeypairDeserialisation)
  else
    match slice bytes 0 4 with
    | none => none
    | some tmp =>
      match slice bytes 4 32 with
      | none => none
      | some chunk_w =>
        match scalarFromCanonicalBytes chunk_w with
        | none => some (Except.error MacError.KeypairDeserialisation)
        | some w =>
          match slice bytes 36 32 with
          | none => none
          | some chunk_wp =>
            match scalarFromCanonicalBytes chunk_wp with
            | none => some (Except.error MacError.KeypairDeserialisation)
            | some w_prime =>
              match slice bytes 68 32 with
              | none => none
              | some chunk_x0 =>
                match scalarFromCanonicalBytes chunk_x0 with
                | none => some (Except.error MacError.KeypairDeserialisation)
                | some x_0 =>
                  match slice bytes 100 32 with
                  | none => none
                  | some chunk_x1 =>
                    match scalarFromCanonicalBytes chunk_x1 with
                    | none => some (Except.error MacError.KeypairDeserialisation)
                    | some x_1 =>
                      match slice bytes 132 32 with
                      | none => none
                      | some chunk_y =>
                        match parse_y_loop chunk_y (leVal tmp) with
                        | none => some (Except.error MacError.KeypairDeserialisation)
                        | some y =>
                          match slice bytes (132 + 32 * leVal tmp) 32 with
                          | none => none
                          | some chunk_W =>
                            match pointDecompress chunk_W with
                            | none => some (Except.error MacError.KeypairDeserialisation)
                            | some W =>
                              some (Except.ok ⟨w, w_prime, x_0, x_1, y, W⟩)

/-- `amacs::Attribute`. -/
inductive Attribute
  | PublicScalar (m : Scalar)
  | SecretScalar (m : Scalar)
  | PublicPoint (M : Point)
  | EitherPoint (p : Plaintext)
  | SecretPoint (p : Plaintext)
deriving DecidableEq

/-- `impl Zeroize for Attribute`: only `SecretScalar` and `SecretPoint` are
zeroed; every other variant is returned unchanged. -/
def Attribute.zeroize : Attribute → Attribute
  | Attribute.SecretScalar _ => Attribute.SecretScalar 0
  | Attribute.SecretPoint p => Attribute.SecretPoint (Plaintext.zeroize p)
  | a => a

/-- `amacs::Messages`: a vector of group elements. -/
abbrev Messages := List Point

/-- The loop of `Messages::from_attributes`, threading the index `i`.  The
generator lookup `G_m[i]` happens only in the two scalar arms, exactly as in
the source; a lookup out of range is a Rust panic, modelled by `none`. -/
def Messages.fromAttributesAux (sp : SystemParameters) :
    List Attribute → Nat → Option Messages
  | [], _ => some []
  | a :: rest, i =>
    let M_i : Option Point :=
      match a with
      | Attribute.PublicScalar m => (sp.G_m.get? i).map (fun g => m * g)
      | Attribute.SecretScalar m => (sp.G_m.get? i).map (fun g => m * g)
      | Attribute.PublicPoint M => some M
      | Attribute.EitherPoint p => some p.M1
      | Attribute.SecretPoint p => some p.M1
    M_i.bind (fun M =>
      (Messages.fromAttributesAux sp rest (i + 1)).map (fun tail => M :: tail))

/-- `Messages::from_attributes`. -/
def Messages.from_attributes (attributes : List Attribute)
    (sp : SystemParameters) : Option Messages :=
  Messages.fromAttributesAux sp attributes 0

/-- `amacs::Amac`: the MAC value `(t, U, V)`. -/
structure Amac where
  t : Scalar
  U : Point
  V : Point
deriving DecidableEq

/-- `RistrettoPoint::multiscalar_mul` over paired sequences (zip semantics of
the dalek implementation). -/
def multiscalar_mul (scalars : List Scalar) (points : List Point) : Point :=
  (List.zipWith (fun s P => s * P) scalars points).sum

/-- `Amac::compute_V`: `V = W + U*x_0 + U*(x_1*t) + multiscalar_mul(y, M)`. -/
def Amac.compute_V (sp : SystemParameters) (sk : SecretKey)
    (attributes : List Attribute) (t : Scalar) (U : Point) : Option Point :=
  (Messages.from_attributes attributes sp).map (fun messages =>
    sk.W + U * sk.x_0 + U * (sk.x_1 * t) + multiscalar_mul sk.y messages)

/-- `Amac::tag`; the random draws `t` and `U` are passed in explicitly. -/
def Amac.tag (sp : SystemParameters) (sk : SecretKey)
    (messages : List Attribute) (t : Scalar) (U : Point) :
    Option (Except MacError Amac) :=
  if messages.length > sp.NUMBER_OF_ATTRIBUTES then
    some (Except.error (MacError.MessageLengthError sp.NUMBER_OF_ATTRIBUTES))
  else
    (Amac.compute_V sp sk messages t U).map (fun V => Except.ok ⟨t, U, V⟩)

/-- `Amac::verify`: recompute `V` and compare for exact equality. -/
def Amac.verify (amac : Amac) (sp : SystemParameters) (sk : SecretKey)
    (messages : List Attribute) : Option (Except MacError Unit) :=
  (Amac.compute_V sp sk messages amac.t amac.U).map (fun V_prime =>
    if amac.V = V_prime then Except.ok ()
    else Except.error MacError.AuthenticationError)

/-! ### Helper definitions and lemmas -/

/-- Per-index message derivation, the value `Messages::from_attributes` stores
at slot `i` (with a defaulted generator lookup; used to state what the fallible
loop computes once its lookups are known to be in range). -/
def msgAt (sp : SystemParameters) (i : Nat) (a : Attribute) : Point :=
  match a with
  | Attribute.PublicScalar m => m * sp.G_m.getD i 0
  | Attribute.SecretScalar m => m * sp.G_m.getD i 0
  | Attribute.PublicPoint M => M
  | Attribute.EitherPoint p => p.M1
  | Attribute.SecretPoint p => p.M1

/-- The list of per-index messages starting at slot `i`. -/
def messagesSpec (sp : SystemParameters) : List Attribute → Nat → List Point
  | [], _ => []
  | a :: rest, i => msgAt sp i a :: messagesSpec sp rest (i + 1)

theorem messagesSpec_length (sp : SystemParameters) :
    ∀ (attrs : List Attribute) (i : Nat),
      (messagesSpec sp attrs i).length = attrs.length := by
  intro attrs
  induction attrs with
  | nil => intro i; rfl
  | cons a rest ih => intro i; simp [messagesSpec, ih]

theorem messagesSpec_getD (sp : SystemParameters) :
    ∀ (attrs : List Attribute) (i k : Nat), k < attrs.length →
      (messagesSpec sp attrs i).getD k 0 =
        msgAt sp (i + k) (attrs.getD k (Attribute.PublicScalar 0)) := by
  intro attrs
  induction attrs with
  | nil => intro i k hk; exact absurd hk (by simp)
  | cons a rest ih =>
    intro i k hk
    cases k with
    | zero => rfl
    | succ k =>
      have hk2 : k < rest.length := by simpa using hk
      have := ih (i + 1) k hk2
      simpa [messagesSpec, Nat.add_assoc, Nat.add_comm 1 k] using this

theorem fromAttributesAux_eq (sp : SystemParameters) :
    ∀ (attrs : List Attribute) (i : Nat), i + attrs.length ≤ sp.G_m.length →
      Messages.fromAttributesAux sp attrs i = some (messagesSpec sp attrs i) := by
  intro attrs
  induction attrs with
  | nil => intro i h; rfl
  | cons a rest ih =>
    intro i h
    have hi : i < sp.G_m.length := by simp at h; omega
    have hrest := ih (i + 1) (by simp at h ⊢; omega)
    obtain ⟨g, hg⟩ : ∃ g, sp.G_m[i]? = some g := by
      cases hg2 : sp.G_m[i]? with
      | none => exact absurd (List.getElem?_eq_none_iff.mp hg2) (by omega)
      | some g => exact ⟨g, rfl⟩
    cases a <;>
      simp [Messages.fromAttributesAux, messagesSpec, msgAt, hg, hrest]

theorem from_attributes_length (sp : SystemParameters) :
    ∀ (attrs : List Attribute) (i : Nat) (ms : Messages),
      Messages.fromAttributesAux sp attrs i = some ms → ms.length = attrs.length := by
  intro attrs
  induction attrs with
  | nil =>
    intro i ms h
    simp [Messages.fromAttributesAux] at h
    simp [← h]
  | cons a rest ih =>
    intro i ms h
    simp only [Messages.fromAttributesAux, Option.bind_eq_some,
      Option.map_eq_some'] at h
    obtain ⟨M, _, tail, htail, hms⟩ := h
    have := ih (i + 1) tail htail
    simp [← hms, this]

theorem multiscalar_mul_eq_sum :
    ∀ (ms : List Point) (ys : List Scalar), ms.length ≤ ys.length →
      multiscalar_mul ys ms =
        ∑ j in Finset.range ms.length, ys.getD j 0 * ms.getD j 0 := by
  intro ms
  induction ms with
  | nil => intro ys h; simp [multiscalar_mul]
  | cons m rest ih =>
    intro ys h
    cases ys with
    | nil => exact absurd h (by simp)
    | cons z zs =>
      have hlen : rest.length ≤ zs.length := by simpa using h
      have hsum := Finset.sum_range_succ'
        (fun j => (z :: zs).getD j 0 * (m :: rest).getD j 0) rest.length
      simp only [List.length_cons, hsum, List.getD_cons_succ, List.getD_cons_zero]
      rw [← ih zs hlen]
      simp [multiscalar_mul, add_comm]

theorem compute_V_of_le (sp : SystemParameters) (sk : SecretKey)
    (attrs : List Attribute) (t : Scalar) (U : Point)
    (h : attrs.length ≤ sp.NUMBER_OF_ATTRIBUTES) :
    Amac.compute_V sp sk attrs t U =
      some (sk.W + U * sk.x_0 + U * (sk.x_1 * t) +
        multiscalar_mul sk.y (messagesSpec sp attrs 0)) := by
  have hmsg := fromAttributesAux_eq sp attrs 0
    (by simpa [SystemParameters.NUMBER_OF_ATTRIBUTES] using h)
  simp [Amac.compute_V, Messages.from_attributes, hmsg]

theorem tag_of_le (sp : SystemParameters) (sk : SecretKey)
    (attrs : List Attribute) (t : Scalar) (U : Point)
    (h : attrs.length ≤ sp.NUMBER_OF_ATTRIBUTES) :
    Amac.tag sp sk attrs t U =
      some (Except.ok ⟨t, U, sk.W + U * sk.x_0 + U * (sk.x_1 * t) +
        multiscalar_mul sk.y (messagesSpec sp attrs 0)⟩) := by
  rw [Amac.tag, if_neg (by omega), compute_V_of_le sp sk attrs t U h]
  rfl

theorem tag_inversion (sp : SystemParameters) (sk : SecretKey)
    (attrs : List Attribute) (t : Scalar) (U : Point) (amac : Amac)
    (h : Amac.tag sp sk attrs t U = some (Except.ok amac)) :
    amac.t = t ∧ amac.U = U ∧
      Amac.compute_V sp sk attrs t U = some amac.V := by
  rw [Amac.tag] at h
  by_cases hlen : attrs.length > sp.NUMBER_OF_ATTRIBUTES
  · rw [if_pos hlen] at h
    exact absurd h (by simp)
  · rw [if_neg hlen] at h
    cases hV : Amac.compute_V sp sk attrs t U with
    | none => rw [hV] at h; exact absurd h (by simp)
    | some V =>
      rw [hV] at h
      simp only [Option.map_some', Option.some.injEq, Except.ok.injEq] at h
      rw [← h]
      exact ⟨rfl, rfl, rfl⟩

theorem verify_of_compute (amac : Amac) (sp : SystemParameters)
    (sk : SecretKey) (attrs : List Attribute) (V2 : Point)
    (h : Amac.compute_V sp sk attrs amac.t amac.U = some V2) :
    Amac.verify amac sp sk attrs =
      some (if amac.V = V2 then Except.ok ()
            else Except.error MacError.AuthenticationError) := by
  rw [Amac.verify, h]
  rfl

/-- If two byte strings agree on their first `K` bytes, every slice read lying
inside those `K` bytes behaves identically on both (including whether it
panics). -/
theorem slice_congr {bytes bytes2 : List Nat} {K : Nat}
    (hpre : bytes.take K = bytes2.take K) (s l : Nat) (h : s + l ≤ K) :
    slice bytes s l = slice bytes2 s l := by
  have hlen : min K bytes.length = min K bytes2.length := by
    have := congrArg List.length hpre
    simpa [List.length_take] using this
  have hiff : s + l ≤ bytes.length ↔ s + l ≤ bytes2.length := by omega
  unfold slice
  by_cases hb : s + l ≤ bytes.length
  · rw [if_pos hb, if_pos (hiff.mp hb)]
    have e1 : ((bytes.take K).drop s).take l = (bytes.drop s).take l := by
      rw [List.drop_take, List.take_take]
      congr 1
      omega
    have e2 : ((bytes2.take K).drop s).take l = (bytes2.drop s).take l := by
      rw [List.drop_take, List.take_take]
      congr 1
      omega
    rw [← e1, ← e2, hpre]
  · rw [if_neg hb, if_neg (fun hc => hb (hiff.mpr hc))]

/-! ### Concrete instances used by witnesses and counterexamples -/

def wsp : SystemParameters := ⟨2, [3, 5, 7, 11, 13]⟩

def wsk : SecretKey := ⟨1, 2, 3, 4, [1, 2, 3, 4, 5], 6⟩

def wplain : Plaintext := ⟨17⟩

/-- An attribute vector mixing all five `Attribute` variants. -/
def wattrs : List Attribute :=
  [Attribute.PublicScalar 2, Attribute.SecretScalar 3, Attribute.PublicPoint 19,
   Attribute.EitherPoint wplain, Attribute.SecretPoint wplain]

/-! ### Claims -/

/-- C1: for every system parameters with attribute capacity `m`, every secret
key, every attribute vector of length at most `m` (mixing any of the five
`Attribute` variants), and every pair of random draws `(t, U)`, `Amac::tag`
returns `Ok(amac)`, and `amac.verify` with the same parameters, key and
attributes returns `Ok(())`. -/
theorem tag_verify_completeness (sp : SystemParameters) (sk : SecretKey)
    (attributes : List Attribute) (t : Scalar) (U : Point)
    (h : attributes.length ≤ sp.NUMBER_OF_ATTRIBUTES) :
    ∃ amac : Amac, Amac.tag sp sk attributes t U = some (Except.ok amac) ∧
      Amac.verify amac sp sk attributes = some (Except.ok ()) := by
  refine ⟨⟨t, U, sk.W + U * sk.x_0 + U * (sk.x_1 * t) +
    multiscalar_mul sk.y (messagesSpec sp attributes 0)⟩,
    tag_of_le sp sk attributes t U h, ?_⟩
  have hc := compute_V_of_le sp sk attributes t U h
  simp [Amac.verify, hc]

theorem tag_verify_completeness_witness :
    wattrs.length ≤ wsp.NUMBER_OF_ATTRIBUTES ∧
    (∃ amac : Amac, Amac.tag wsp wsk wattrs 21 23 = some (Except.ok amac) ∧
      Amac.verify amac wsp wsk wattrs = some (Except.ok ())) :=
  ⟨by decide, tag_verify_completeness wsp wsk wattrs 21 23 (by decide)⟩

/-- C2: whenever `Messages::from_attributes` yields the message vector `ms`
(and the key has at least as many `y` entries as there are attributes, as any
key generated for the parameters does), `Amac::compute_V` returns exactly
`W + U*x_0 + U*(x_1*t) + Σ_i y_i * M_i`, the sum ranging over the message
indices. -/
theorem compute_V_formula (sp : SystemParameters) (sk : SecretKey)
    (attributes : List Attribute) (t : Scalar) (U : Point) (ms : Messages)
    (hy : attributes.length ≤ sk.y.length)
    (hms : Messages.from_attributes attributes sp = some ms) :
    Amac.compute_V sp sk attributes t U =
      some (sk.W + U * sk.x_0 + U * (sk.x_1 * t) +
        ∑ i in Finset.range ms.length, sk.y.getD i 0 * ms.getD i 0) := by
  have hlen : ms.length = attributes.length :=
    from_attributes_length sp attributes 0 ms hms
  rw [Amac.compute_V, hms, Option.map_some',
    multiscalar_mul_eq_sum ms sk.y (by omega)]

theorem compute_V_formula_witness :
    (wattrs.length ≤ wsk.y.length ∧
      Messages.from_attributes wattrs wsp = some [6, 15, 19, 17, 17]) ∧
    Amac.compute_V wsp wsk wattrs 21 23 =
      some (wsk.W + 23 * wsk.x_0 + 23 * (wsk.x_1 * 21) +
        ∑ i in Finset.range (List.length ([6, 15, 19, 17, 17] : Messages)),
          wsk.y.getD i 0 * List.getD ([6, 15, 19, 17, 17] : Messages) i 0) :=
  ⟨⟨by decide, by decide⟩,
    compute_V_formula wsp wsk wattrs 21 23 [6, 15, 19, 17, 17]
      (by decide) (by decide)⟩

/-- C6: given `attributes.len() ≤ NUMBER_OF_ATTRIBUTES`,
`Messages::from_attributes` is total (it cannot panic), preserves the length,
and maps slot `i` to `m * G_m[i]` for scalar attributes, `M` for
`PublicPoint(M)`, and `p.M1` for `EitherPoint(p)` / `SecretPoint(p)`. -/
theorem from_attributes_total_spec (sp : SystemParameters)
    (attributes : List Attribute)
    (h : attributes.length ≤ sp.NUMBER_OF_ATTRIBUTES) :
    ∃ ms : Messages, Messages.from_attributes attributes sp = some ms ∧
      ms.length = attributes.length ∧
      ∀ i : Nat, i < attributes.length →
        ms.getD i 0 = msgAt sp i (attributes.getD i (Attribute.PublicScalar 0)) := by
  refine ⟨messagesSpec sp attributes 0,
    fromAttributesAux_eq sp attributes 0
      (by simpa [SystemParameters.NUMBER_OF_ATTRIBUTES] using h),
    messagesSpec_length sp attributes 0, ?_⟩
  intro i hi
  simpa using messagesSpec_getD sp attributes 0 i hi

theorem from_attributes_total_spec_witness :
    wattrs.length ≤ wsp.NUMBER_OF_ATTRIBUTES ∧
    (∃ ms : Messages, Messages.from_attributes wattrs wsp = some ms ∧
      ms.length = wattrs.length ∧
      ∀ i : Nat, i < wattrs.length →
        ms.getD i 0 = msgAt wsp i (wattrs.getD i (Attribute.PublicScalar 0))) :=
  ⟨by decide, from_attributes_total_spec wsp wattrs (by decide)⟩

/-- C8: `Amac::tag` fails exactly when the attribute vector is strictly longer
than `NUMBER_OF_ATTRIBUTES`, and then the error is `MessageLengthError` whose
`length` field is the configured maximum `NUMBER_OF_ATTRIBUTES` (not the
offending vector's length); otherwise it returns `Ok`, so no other error is
ever produced. -/
theorem tag_length_check (sp : SystemParameters) (sk : SecretKey)
    (messages : List Attribute) (t : Scalar) (U : Point) :
    (sp.NUMBER_OF_ATTRIBUTES < messages.length →
      Amac.tag sp sk messages t U =
        some (Except.error (MacError.MessageLengthError sp.NUMBER_OF_ATTRIBUTES))) ∧
    (messages.length ≤ sp.NUMBER_OF_ATTRIBUTES →
      ∃ amac : Amac, Amac.tag sp sk messages t U = some (Except.ok amac)) := by
  constructor
  · intro h
    rw [Amac.tag, if_pos h]
  · intro h
    exact ⟨_, tag_of_le sp sk messages t U h⟩

theorem tag_length_check_witness :
    Amac.tag wsp wsk (wattrs ++ wattrs) 21 23 =
      some (Except.error (MacError.MessageLengthError wsp.NUMBER_OF_ATTRIBUTES)) :=
  (tag_length_check wsp wsk (wattrs ++ wattrs) 21 23).1 (by decide)

/-- C9: `SecretKey::zeroize` zeroes `w, w_prime, x_0, x_1` and every entry of
`y` and sets `W` to the group identity; `Attribute::zeroize` zeroes the scalar
inside `SecretScalar` and the plaintext inside `SecretPoint` and leaves
`PublicScalar`, `PublicPoint` and `EitherPoint` completely unchanged. -/
theorem zeroize_spec :
    (∀ sk : SecretKey, (SecretKey.zeroize sk).w = 0 ∧
      (SecretKey.zeroize sk).w_prime = 0 ∧ (SecretKey.zeroize sk).x_0 = 0 ∧
      (SecretKey.zeroize sk).x_1 = 0 ∧
      (∀ s ∈ (SecretKey.zeroize sk).y, s = 0) ∧
      (SecretKey.zeroize sk).W = 0) ∧
    (∀ m : Scalar,
      Attribute.zeroize (Attribute.SecretScalar m) = Attribute.SecretScalar 0) ∧
    (∀ p : Plaintext,
      Attribute.zeroize (Attribute.SecretPoint p) = Attribute.SecretPoint ⟨0⟩) ∧
    (∀ m : Scalar,
      Attribute.zeroize (Attribute.PublicScalar m) = Attribute.PublicScalar m) ∧
    (∀ M : Point,
      Attribute.zeroize (Attribute.PublicPoint M) = Attribute.PublicPoint M) ∧
    (∀ p : Plaintext,
      Attribute.zeroize (Attribute.EitherPoint p) = Attribute.EitherPoint p) := by
  refine ⟨fun sk => ⟨rfl, rfl, rfl, rfl, ?_, rfl⟩,
    fun m => rfl, fun p => rfl, fun m => rfl, fun M => rfl, fun p => rfl⟩
  intro s hs
  simp [SecretKey.zeroize] at hs
  exact hs.2

/-- A key differing from `wsk` only in `w_prime`. -/
def c4sk_wp : SecretKey := ⟨1, 99, 3, 4, [1, 2, 3, 4, 5], 6⟩

/-- A key differing from `wsk` only in `x_0`. -/
def c4sk_x0 : SecretKey := ⟨1, 2, 0, 4, [1, 2, 3, 4, 5], 6⟩

/-- Counterexample to C4 as stated: an amac produced by `Amac::tag` is
accepted by `Amac::verify` under a *different* secret key (differing in
`w_prime`, which `compute_V` never reads), returning `Ok(())` rather than
`AuthenticationError`. -/
theorem verify_accepts_different_key :
    Amac.tag wsp wsk wattrs 21 23 = some (Except.ok ⟨21, 23, 2253⟩) ∧
    c4sk_wp ≠ wsk ∧
    Amac.verify ⟨21, 23, 2253⟩ wsp c4sk_wp wattrs = some (Except.ok ()) := by
  decide

/-- C4 (amended): for an amac produced by `Amac::tag`, verification against a
different key, different attributes, or tampered `t`/`U` yields
`AuthenticationError` exactly when the recomputed `V'` differs from the amac's
`V` (keys differing only in `w` or `w_prime` recompute the same `V'` and are
accepted); perturbing the amac's `V` by any nonzero `d` always yields
`AuthenticationError`. -/
theorem verify_soundness_amended (sp : SystemParameters) (sk : SecretKey)
    (attributes : List Attribute) (t : Scalar) (U : Point) (amac : Amac)
    (h : Amac.tag sp sk attributes t U = some (Except.ok amac))
    (sk2 : SecretKey) (attributes2 : List Attribute) (t2 : Scalar) (U2 : Point)
    (V2 : Point) (hV2 : Amac.compute_V sp sk2 attributes2 t2 U2 = some V2)
    (hne : V2 ≠ amac.V) (d : Point) (hd : d ≠ 0) :
    Amac.verify ⟨t2, U2, amac.V⟩ sp sk2 attributes2 =
      some (Except.error MacError.AuthenticationError) ∧
    Amac.verify ⟨amac.t, amac.U, amac.V + d⟩ sp sk attributes =
      some (Except.error MacError.AuthenticationError) := by
  obtain ⟨ht, hU, hV⟩ := tag_inversion sp sk attributes t U amac h
  constructor
  · rw [verify_of_compute ⟨t2, U2, amac.V⟩ sp sk2 attributes2 V2 hV2,
      if_neg (fun hc => hne hc.symm)]
  · have hV2' : Amac.compute_V sp sk attributes amac.t amac.U = some amac.V := by
      rw [ht, hU]; exact hV
    rw [verify_of_compute ⟨amac.t, amac.U, amac.V + d⟩ sp sk attributes amac.V hV2',
      if_neg (fun hc => hd (add_right_eq_self.mp hc))]

theorem verify_soundness_amended_witness :
    (Amac.tag wsp wsk wattrs 21 23 = some (Except.ok ⟨21, 23, 2253⟩) ∧
      Amac.compute_V wsp c4sk_x0 wattrs 21 23 = some 2184 ∧
      (2184 : Point) ≠ (2253 : Point) ∧ (1 : Point) ≠ 0) ∧
    (Amac.verify ⟨21, 23, 2253⟩ wsp c4sk_x0 wattrs =
        some (Except.error MacError.AuthenticationError) ∧
      Amac.verify ⟨21, 23, 2253 + 1⟩ wsp wsk wattrs =
        some (Except.error MacError.AuthenticationError)) :=
  ⟨⟨by decide, by decide, by decide, by decide⟩,
    verify_soundness_amended wsp wsk wattrs 21 23 ⟨21, 23, 2253⟩ (by decide)
      c4sk_x0 wattrs 21 23 2184 (by decide) (by decide) 1 (by decide)⟩

/-- The key used for the C3 failing input: two attributes with distinct `y`
entries. -/
def c3_key : SecretKey := ⟨0, 0, 0, 0, [0, 1], 0⟩

/-- C3: evaluation of the code at the failing input.  Serialising a key with
`y = [0, 1]` and deserialising succeeds but returns `y = [0, 0]`: the Rust
loop never refreshes `chunk`, so every `y_i` is parsed from `bytes[132..164]`
(the encoding of `y_0`).  The round-trip claim fails for every key with `n ≥ 2`
distinct `y` entries. -/
theorem from_bytes_to_bytes_corrupts_y :
    SecretKey.from_bytes (SecretKey.to_bytes c3_key) =
      some (Except.ok ⟨0, 0, 0, 0, [0, 0], 0⟩) ∧
    (⟨0, 0, 0, 0, [0, 0], 0⟩ : SecretKey) ≠ c3_key := by
  decide

/-- The C5 failing input: 196 bytes (the minimum accepted length) whose
leading 4 bytes declare `n = 2` attributes, with all scalar regions canonical
(zero). -/
def c5_bytes : List Nat := 2 :: 0 :: 0 :: 0 :: List.replicate 192 0

/-- C5: evaluation of the code at the failing input.  The only length check in
`from_bytes` compares against `sizeof_secret_key(1) = 196`; with a declared
count of 2 the `W` read is `bytes[196..228]`, out of bounds for this 196-byte
input, so the code panics (modelled by `none`) instead of returning
`KeypairDeserialisation`. -/
theorem from_bytes_out_of_bounds : SecretKey.from_bytes c5_bytes = none := by
  decide

/-- System parameters for the C7 counterexample. -/
def c7_sp : SystemParameters := ⟨0, [0]⟩

/-- A serialised key whose scalar fields are all zero but whose `W` is the
compressed encoding of a nonzero point. -/
def c7_bytes : List Nat :=
  1 :: 0 :: 0 :: 0 :: (List.replicate 160 0 ++ natToLEBytes 32 1)

/-- The key `from_bytes` accepts for `c7_bytes`. -/
def c7_key : SecretKey := ⟨0, 0, 0, 0, [0], 1⟩

/-- Counterexample to C7 as stated: `SecretKey::from_bytes` accepts a key
whose `W` is not `G_w * w` (it trusts the encoded `W` and never re-derives
it). -/
theorem from_bytes_accepts_broken_invariant :
    SecretKey.from_bytes c7_bytes = some (Except.ok c7_key) ∧
    c7_key.W ≠ c7_sp.G_w * c7_key.w := by
  decide

/-- C7 (amended): `SecretKey::generate` establishes the invariant
`W = G_w * w` at construction, but `from_bytes` trusts the encoded `W` and
can accept keys violating it. -/
theorem generate_invariant_from_bytes_trusts :
    (∀ (sp : SystemParameters) (w w2 x0 x1 : Scalar) (ys : Nat → Scalar),
      (SecretKey.generate sp w w2 x0 x1 ys).W = sp.G_w * w) ∧
    (∃ (bytes : List Nat) (sp : SystemParameters) (sk : SecretKey),
      SecretKey.from_bytes bytes = some (Except.ok sk) ∧
      sk.W ≠ sp.G_w * sk.w) := by
  constructor
  · intro sp w w2 x0 x1 ys
    rfl
  · exact ⟨c7_bytes, c7_sp, c7_key, by decide, by decide⟩

/-- C10 (amended): for inputs that pass the minimum-length check
(`length ≥ sizeof_secret_key(1)`), `SecretKey::from_bytes` never inspects
bytes past offset `32*(5+n)+4`, where `n` is the attribute count read from the
first four bytes: any two such inputs agreeing up to that offset produce
identical results (in particular trailing bytes are ignored, and no check
relates the total length to the declared count). -/
theorem from_bytes_prefix_determined (bytes bytes2 : List Nat)
    (h1 : sizeof_secret_key 1 ≤ bytes.length)
    (h2 : sizeof_secret_key 1 ≤ bytes2.length)
    (hpre : bytes.take (sizeof_secret_key (leVal (bytes.take 4))) =
            bytes2.take (sizeof_secret_key (leVal (bytes.take 4)))) :
    SecretKey.from_bytes bytes = SecretKey.from_bytes bytes2 := by
  have h196 : sizeof_secret_key 1 = 196 := rfl
  have hlen1 : 196 ≤ bytes.length := by rw [← h196]; exact h1
  have hlen2 : 196 ≤ bytes2.length := by rw [← h196]; exact h2
  have hK164 : 164 ≤ sizeof_secret_key (leVal (bytes.take 4)) := by
    unfold sizeof_secret_key
    omega
  have hKW : 132 + 32 * leVal (bytes.take 4) + 32 ≤
      sizeof_secret_key (leVal (bytes.take 4)) := by
    unfold sizeof_secret_key
    omega
  have ht0 : slice bytes 0 4 = some (bytes.take 4) := by
    unfold slice
    rw [if_pos (by omega), List.drop_zero]
  have ht0' : slice bytes2 0 4 = some (bytes.take 4) := by
    rw [← slice_congr hpre 0 4 (by omega)]
    exact ht0
  have c1 : slice bytes 4 32 = slice bytes2 4 32 :=
    slice_congr hpre 4 32 (by omega)
  have c2 : slice bytes 36 32 = slice bytes2 36 32 :=
    slice_congr hpre 36 32 (by omega)
  have c3 : slice bytes 68 32 = slice bytes2 68 32 :=
    slice_congr hpre 68 32 (by omega)
  have c4 : slice bytes 100 32 = slice bytes2 100 32 :=
    slice_congr hpre 100 32 (by omega)
  have c5 : slice bytes 132 32 = slice bytes2 132 32 :=
    slice_congr hpre 132 32 (by omega)
  have cW : slice bytes (132 + 32 * leVal (bytes.take 4)) 32 =
      slice bytes2 (132 + 32 * leVal (bytes.take 4)) 32 :=
    slice_congr hpre (132 + 32 * leVal (bytes.take 4)) 32 hKW
  unfold SecretKey.from_bytes
  rw [if_neg (by rw [h196]; omega), if_neg (by rw [h196]; omega)]
  simp only [ht0, ht0', c1, c2, c3, c4, c5, cW]

def c10_short : List Nat := List.replicate 164 0

def c10_long : List Nat := List.replicate 196 0

/-- Counterexample to C10 as stated: these two inputs agree up to offset
`32*(5+n)+4 = 164` for the declared count `n = 0`, yet `from_bytes` returns
different results, because the 164-byte input fails the fixed minimum-length
check (`sizeof_secret_key(1) = 196`) while the 196-byte input is accepted. -/
theorem from_bytes_prefix_counterexample :
    leVal (c10_short.take 4) = 0 ∧
    c10_short.take (sizeof_secret_key 0) = c10_long.take (sizeof_secret_key 0) ∧
    SecretKey.from_bytes c10_short ≠ SecretKey.from_bytes c10_long := by
  decide

def w10a : List Nat := List.replicate 196 0

def w10b : List Nat := List.replicate 200 0

theorem from_bytes_prefix_determined_witness :
    (sizeof_secret_key 1 ≤ w10a.length ∧ sizeof_secret_key 1 ≤ w10b.length ∧
      w10a.take (sizeof_secret_key (leVal (w10a.take 4))) =
        w10b.take (sizeof_secret_key (leVal (w10a.take 4)))) ∧
    SecretKey.from_bytes w10a = SecretKey.from_bytes w10b :=
  ⟨⟨by decide, by decide, by decide⟩,
    from_bytes_prefix_determined w10a w10b (by decide) (by decide) (by decide)⟩

end Aeonflux
